import Mathlib

/-!
Shallow embedding of the decompiler core of `tools/kbdreverse.cpp`
(Windows Keyboards Layouts utility, reverse generator).

The embedding covers:
* the value formatter (`integer`, `symbol`, `bitMask`, `attributes`,
  `localeFlags`, `wchar`, `wstring`) together with the symbol tables it
  consumes,
* the extent tracker (`DataStructure`, `sortDataStructures`),
* the sentinel-terminated table walks (`genVkToBits`, `genSubVkToWchar`
  iteration skeletons),
* the root-structure emission decisions of `SourceGenerator::generate`.

Wide strings are modelled as `List Char`; machine integers as `Nat`
(all values the program feeds to these functions are nonnegative bit
patterns), with 64-bit wrap-around made explicit where the source relies
on it.
-/

namespace KbdRev

/-- Model of `std::wstring`: a list of characters. -/
abbrev Wstr := List Char

/-- Model of `typedef __int64 Value;` — the key type of symbol tables.  Every value
the program puts in a table or formats is a nonnegative bit pattern, so we
model the 64-bit pattern as a `Nat`. -/
abbrev Value := Nat

/-- The single-quote character (kept out of string literals). -/
def qc : Char := Char.ofNat 39

/-- The backslash character (kept out of string literals). -/
def bsl : Char := Char.ofNat 92

/-- The double-quote character (kept out of string literals). -/
def dq : Char := Char.ofNat 34

/-- Decimal digit character (`d < 10`). -/
def digitChar (d : Nat) : Char := Char.ofNat (48 + d)

/-- Upper-case hexadecimal digit character (`d < 16`), as printed by `%X`. -/
def hexDigitChar (d : Nat) : Char :=
  if d < 10 then Char.ofNat (48 + d) else Char.ofNat (55 + d)

/-- Lower-case hexadecimal digit character (`d < 16`), as printed by `%x`. -/
def hexDigitCharLower (d : Nat) : Char :=
  if d < 10 then Char.ofNat (48 + d) else Char.ofNat (87 + d)

/-- Fuel-driven digit expansion of `n` in base `base`, most significant
digit first, prepended to `acc`.  Fuel `n + 1` is always sufficient. -/
def digitsCore (base : Nat) (digit : Nat → Char) : Nat → Nat → Wstr → Wstr
  | 0, _, acc => acc
  | fuel + 1, n, acc =>
    if n < base then digit n :: acc
    else digitsCore base digit fuel (n / base) (digit (n % base) :: acc)

/-- Decimal digits of `n`, most significant first (printf `%llu` body). -/
def natDigits (n : Nat) : Wstr := digitsCore 10 digitChar (n + 1) n []

/-- Upper-case hexadecimal digits of `n`, most significant first. -/
def natHexDigits (n : Nat) : Wstr := digitsCore 16 hexDigitChar (n + 1) n []

/-- Lower-case hexadecimal digits of `n`, most significant first. -/
def natHexDigitsLower (n : Nat) : Wstr := digitsCore 16 hexDigitCharLower (n + 1) n []

/-- Zero padding to a field width, as done by a `%0*` printf width. -/
def padZero (width : Nat) (ds : Wstr) : Wstr :=
  List.replicate (width - ds.length) '0' ++ ds

/-- printf `%lld` applied to the 64-bit pattern `v`: values with the top
bit set print as the negative two's-complement value. -/
def decFmt (v : Value) : Wstr :=
  if v < 2 ^ 63 then natDigits v else '-' :: natDigits (2 ^ 64 - v)

/-- printf `0x%0*llX`: `0x` marker followed by zero-padded upper-case
hexadecimal digits. -/
def hexFmt (width : Nat) (v : Value) : Wstr :=
  '0' :: 'x' :: padZero width (natHexDigits v)

/-- Model of `SourceGenerator::integer`: decimal if `hex_digits <= 0`, else
fixed-width hexadecimal. -/
def integer (v : Value) (hexDigits : Int) : Wstr :=
  if hexDigits ≤ 0 then decFmt v else hexFmt hexDigits.toNat v

/-- Two's-complement negation mask: `~b` truncated to 64 bits
(`b < 2 ^ 64` in every use). -/
def cpl64 (b : Nat) : Nat := 2 ^ 64 - 1 - b

/-- One `(value, name)` entry of a symbol table. -/
abbrev SymEntry := Value × Wstr

/-- Model of a `SymbolTable` (`std::map<Value, WString>`): its entry
sequence in map iteration order: strictly ascending keys. -/
abbrev SymbolTable := List SymEntry

/-- Insertion into the (sorted, duplicate-free) map entry sequence:
an already present key keeps its first-inserted value. -/
def mapInsert (e : SymEntry) : SymbolTable → SymbolTable
  | [] => [e]
  | f :: rest =>
    if f.1 < e.1 then f :: mapInsert e rest
    else if f.1 = e.1 then f :: rest
    else e :: f :: rest

/-- Entry sequence of the `std::map` built from an initializer list in
declaration order. -/
def mapOfList (decl : List SymEntry) : SymbolTable :=
  decl.foldl (fun acc e => mapInsert e acc) []

/-- Lookup `map::find` on the entry sequence. -/
def tableFind (table : SymbolTable) (v : Value) : Option Wstr :=
  match table.find? (fun e => e.1 == v) with
  | some e => some e.2
  | none => none

/-- Model of `SourceGenerator::symbol`: catalog name if present (and `-n` not set),
else numeric. -/
def symbol (numOnly : Bool) (table : SymbolTable) (value : Value)
    (hexDigits : Int) : Wstr :=
  if numOnly then integer value hexDigits
  else
    match tableFind table value with
    | some name => name
    | none => integer value hexDigits

/-- The separator `" | "` between matched flag names. -/
def barSep : Wstr := [' ', '|', ' ']

/-- The entry loop of `SourceGenerator::bitMask`, iterating the map entry
sequence with the `str`/`bits` accumulators of the source.  `Sum.inl name`
is the early `return sym.second` taken for a zero key when `value == 0`. -/
def bmLoop (value : Value) : List SymEntry → Wstr → Value → Wstr ⊕ (Wstr × Value)
  | [], str, bits => Sum.inr (str, bits)
  | e :: rest, str, bits =>
    if e.1 = 0 ∧ value = 0 then Sum.inl e.2
    else if e.1 ≠ 0 ∧ value &&& e.1 = e.1 then
      bmLoop value rest (if str = [] then e.2 else str ++ barSep ++ e.2) (bits ||| e.1)
    else bmLoop value rest str bits

/-- Rendering of the residual bits, `Format(L"0x%0*lld", hex_digits,
value & ~bits)`.  NOTE: the printf conversion in the source is `lld`, so
the digits following the `0x` marker are the DECIMAL digits of the
residual value. -/
def residualFmt (hexDigits : Int) (residual : Value) : Wstr :=
  '0' :: 'x' :: padZero hexDigits.toNat (decFmt residual)

/-- Model of `SourceGenerator::bitMask` on a map entry sequence. -/
def bitMask (numOnly : Bool) (table : SymbolTable) (value : Value)
    (hexDigits : Int) : Wstr :=
  if numOnly then integer value hexDigits
  else
    match bmLoop value table [] 0 with
    | Sum.inl name => name
    | Sum.inr (str, bits) =>
      if bits ≠ 0 then
        if value &&& cpl64 bits ≠ 0 then
          (if str = [] then [] else str ++ barSep) ++
            residualFmt hexDigits (value &&& cpl64 bits)
        else str
      else integer value hexDigits

/-- Function `bitMask` applied to a table written as an initializer list: the map
construction reorders the declared entries into ascending key order. -/
def bitMaskFromDecl (numOnly : Bool) (decl : List SymEntry) (value : Value)
    (hexDigits : Int) : Wstr :=
  bitMask numOnly (mapOfList decl) value hexDigits

/-- Modelled from the spec (not from the source): a variant of `bitMask`
that tests the entries in the order in which they were declared
("iterate table entries in declared order"), for comparison with the
behaviour of the source, which iterates the `std::map` in key order. -/
def bitMaskDeclaredOrder (numOnly : Bool) (decl : List SymEntry) (value : Value)
    (hexDigits : Int) : Wstr :=
  bitMask numOnly decl value hexDigits

/-- OR of every key of a table (`all_attributes` in
`SourceGenerator::attributes`). -/
def orKeys (table : SymbolTable) : Value :=
  table.foldl (fun a e => a ||| e.1) 0

/-- Model of `SourceGenerator::attributes`: the value with all possible attribute
bits masked out goes through `symbol`, the attribute bits (if any) are
appended through `bitMask`. -/
def attributes (numOnly : Bool) (syms attrs : SymbolTable) (value : Value)
    (hexDigits : Int) : Wstr :=
  if numOnly then integer value hexDigits
  else
    let allAttr := orKeys attrs
    let str := symbol numOnly syms (value &&& cpl64 allAttr) hexDigits
    if value &&& allAttr ≠ 0 then
      str ++ barSep ++ bitMask numOnly attrs (value &&& allAttr) hexDigits
    else str

/-- Table `{SYM(KLLF_ALTGR), SYM(KLLF_SHIFTLOCK), SYM(KLLF_LRM_RLM)}` with the
values of the Windows `kbd.h` header. -/
def kllfTable : SymbolTable :=
  mapOfList
    [(1, "KLLF_ALTGR".toList), (2, "KLLF_SHIFTLOCK".toList),
     (4, "KLLF_LRM_RLM".toList)]

/-- Table `{SYM(KBD_VERSION)}` with the `kbd.h` value `KBD_VERSION = 1`. -/
def kbdVersionTable : SymbolTable := mapOfList [(1, "KBD_VERSION".toList)]

/-- Model of `SourceGenerator::localeFlags`: `Format(L"0x%08X", flags)` under `-n`,
else a `MAKELONG` of the low word as a bit mask and the high word as a
version symbol. -/
def localeFlags (numOnly : Bool) (flags : Nat) : Wstr :=
  if numOnly then '0' :: 'x' :: padZero 8 (natHexDigits flags)
  else
    "MAKELONG(".toList ++ bitMask false kllfTable (flags % 2 ^ 16) 4 ++
      [',', ' '] ++ symbol false kbdVersionTable (flags / 2 ^ 16) 4 ++ [')']

/-- Table `wchar_symbols`: complete symbols for a WCHAR (character literals for
the control/quote/backslash escapes, `kbd.h` names for the markers
`WCH_NONE = 0xF000`, `WCH_DEAD = 0xF001`, `WCH_LGTR = 0xF002`). -/
def wchar_symbols : SymbolTable :=
  mapOfList
    [(9, ['L', qc, bsl, 't', qc]),
     (10, ['L', qc, bsl, 'n', qc]),
     (13, ['L', qc, bsl, 'r', qc]),
     (39, ['L', qc, bsl, qc, qc]),
     (92, ['L', qc, bsl, bsl, qc]),
     (0xF000, "WCH_NONE".toList),
     (0xF001, "WCH_DEAD".toList),
     (0xF002, "WCH_LGTR".toList)]

/-- Table `wchar_literals`: WCHAR representation inside string literals. -/
def wchar_literals : SymbolTable :=
  mapOfList
    [(9, [bsl, 't']),
     (10, [bsl, 'n']),
     (13, [bsl, 'r']),
     (34, [bsl, dq]),
     (92, [bsl, bsl])]

/-- Table `wchar_descriptions`: names of some usual non-ASCII WCHAR values, for
insertion in comments. -/
def wchar_descriptions : SymbolTable :=
  mapOfList
    [(0x0008, "BS".toList),
     (0x0009, "TAB".toList),
     (0x000A, "LF".toList),
     (0x000B, "VT".toList),
     (0x000C, "FF".toList),
     (0x000D, "CR".toList),
     (0x001B, "ESC".toList),
     (0x007F, "DEL".toList),
     (0x00A0, "Nbrk space".toList),
     (0x00A1, "Inv !".toList),
     (0x00A2, "Cent".toList),
     (0x00A3, "Pound".toList),
     (0x00A4, "Currency".toList),
     (0x00A5, "Yen".toList),
     (0x00A6, "Broken bar".toList),
     (0x00A7, "Section".toList),
     (0x00A8, "Diaeresis".toList),
     (0x00A9, "Copyright".toList),
     (0x00AA, "Fem ord".toList),
     (0x00AB, "<<".toList),
     (0x00AC, "Not".toList),
     (0x00AD, "Soft hyphen".toList),
     (0x00AE, "Registered".toList),
     (0x00AF, "Macron".toList),
     (0x00B0, "Degree".toList),
     (0x00B1, "+/-".toList),
     (0x00B2, "Superscr two".toList),
     (0x00B3, "Superscr three".toList),
     (0x00B4, "Acute".toList),
     (0x00B5, "Micro".toList),
     (0x00B6, "Pilcrow".toList),
     (0x00B7, "Middle dot".toList),
     (0x00B8, "Cedilla".toList),
     (0x00B9, "Superscr one".toList),
     (0x00BA, "Masc ord".toList),
     (0x00BB, ">>".toList),
     (0x00BC, "1/4".toList),
     (0x00BD, "1/2".toList),
     (0x00BE, "3/4".toList),
     (0x00BF, "Inv ?".toList),
     (0x00C0, "A grave".toList),
     (0x00C1, "A acute".toList),
     (0x00C2, "A circumflex".toList),
     (0x00C3, "A tilde".toList),
     (0x00C4, "A diaeresis".toList),
     (0x00C5, "A ring above".toList),
     (0x00C6, "AE".toList),
     (0x00C7, "C cedilla".toList),
     (0x00C8, "E grave".toList),
     (0x00C9, "E acute".toList),
     (0x00CA, "E circumflex".toList),
     (0x00CB, "E diaeresis".toList),
     (0x00CC, "I grave".toList),
     (0x00CD, "I acute".toList),
     (0x00CE, "I circumflex".toList),
     (0x00CF, "I diaeresis".toList),
     (0x00D0, "ETH".toList),
     (0x00D1, "N tilde".toList),
     (0x00D2, "O grave".toList),
     (0x00D3, "O acute".toList),
     (0x00D4, "O circumflex".toList),
     (0x00D5, "O tilde".toList),
     (0x00D6, "O diaeresis".toList),
     (0x00D7, "Multiplication".toList),
     (0x00D8, "O stroke".toList),
     (0x00D9, "U grave".toList),
     (0x00DA, "U acute".toList),
     (0x00DB, "U circumflex".toList),
     (0x00DC, "U diaeresis".toList),
     (0x00DD, "Y acute".toList),
     (0x00DE, "THORN".toList),
     (0x00DF, "sharp S".toList),
     (0x00E0, "a grave".toList),
     (0x00E1, "a acute".toList),
     (0x00E2, "a circumflex".toList),
     (0x00E3, "a tilde".toList),
     (0x00E4, "a diaeresis".toList),
     (0x00E5, "a ring above".toList),
     (0x00E6, "ae".toList),
     (0x00E7, "c cedilla".toList),
     (0x00E8, "e grave".toList),
     (0x00E9, "e acute".toList),
     (0x00EA, "e circumflex".toList),
     (0x00EB, "e diaeresis".toList),
     (0x00EC, "i grave".toList),
     (0x00ED, "i acute".toList),
     (0x00EE, "i circumflex".toList),
     (0x00EF, "i diaeresis".toList),
     (0x00F0, "eth".toList),
     (0x00F1, "n tilde".toList),
     (0x00F2, "o grave".toList),
     (0x00F3, "o acute".toList),
     (0x00F4, "o circumflex".toList),
     (0x00F5, "o tilde".toList),
     (0x00F6, "o diaeresis".toList),
     (0x00F7, "Division".toList),
     (0x00F8, "o stroke".toList),
     (0x00F9, "u grave".toList),
     (0x00FA, "u acute".toList),
     (0x00FB, "u circumflex".toList),
     (0x00FC, "u diaeresis".toList),
     (0x00FD, "y acute".toList),
     (0x00FE, "thorn".toList),
     (0x00FF, "y diaeresis".toList),
     (0x0100, "A macron".toList),
     (0x0101, "a macron".toList),
     (0x0102, "A breve".toList),
     (0x0103, "a breve".toList),
     (0x0104, "A ogonek".toList),
     (0x0105, "a ogonek".toList),
     (0x0106, "C acute".toList),
     (0x0107, "c acute".toList),
     (0x0108, "C circumflex".toList),
     (0x0109, "c circumflex".toList),
     (0x010A, "C dot above".toList),
     (0x010B, "c dot above".toList),
     (0x010C, "C caron".toList),
     (0x010D, "c caron".toList),
     (0x010E, "D caron".toList),
     (0x010F, "d caron".toList),
     (0x0110, "D stroke".toList),
     (0x0111, "d stroke".toList),
     (0x0112, "E macron".toList),
     (0x0113, "e macron".toList),
     (0x0116, "E dot above".toList),
     (0x0117, "e dot above".toList),
     (0x0118, "E ogonek".toList),
     (0x0119, "e ogonek".toList),
     (0x011A, "E caron".toList),
     (0x011B, "e caron".toList),
     (0x011C, "G circumflex".toList),
     (0x011D, "g circumflex".toList),
     (0x011E, "G breve".toList),
     (0x011F, "g breve".toList),
     (0x0120, "G dot above".toList),
     (0x0121, "g dot above".toList),
     (0x0122, "G cedilla".toList),
     (0x0123, "g cedilla".toList),
     (0x0124, "H circumflex".toList),
     (0x0125, "h circumflex".toList),
     (0x0126, "H stroke".toList),
     (0x0127, "h stroke".toList),
     (0x0128, "I tilde".toList),
     (0x0129, "i tilde".toList),
     (0x012A, "I macron".toList),
     (0x012B, "i macron".toList),
     (0x012E, "I ogonek".toList),
     (0x012F, "i ogonek".toList),
     (0x0130, "I dot above".toList),
     (0x0131, "Dotless I".toList),
     (0x0134, "J circumflex".toList),
     (0x0135, "j circumflex".toList),
     (0x0136, "K cedilla".toList),
     (0x0137, "k cedilla".toList),
     (0x0138, "kra".toList),
     (0x0139, "L acute".toList),
     (0x013A, "l acute".toList),
     (0x013B, "L cedilla".toList),
     (0x013C, "l cedilla".toList),
     (0x013D, "L caron".toList),
     (0x013E, "l caron".toList),
     (0x0141, "L stroke".toList),
     (0x0142, "l stroke".toList),
     (0x0143, "N acute".toList),
     (0x0144, "n acute".toList),
     (0x0145, "N cedilla".toList),
     (0x0146, "n cedilla".toList),
     (0x0147, "N caron".toList),
     (0x0148, "n caron".toList),
     (0x014A, "ENG".toList),
     (0x014B, "eng".toList),
     (0x014C, "O macron".toList),
     (0x014D, "o macron".toList),
     (0x0150, "O double acute".toList),
     (0x0151, "o double acute".toList),
     (0x0152, "OE".toList),
     (0x0153, "oe".toList),
     (0x0154, "R acute".toList),
     (0x0155, "r acute".toList),
     (0x0156, "R cedilla".toList),
     (0x0157, "r cedilla".toList),
     (0x0158, "R caron".toList),
     (0x0159, "r caron".toList),
     (0x015A, "S acute".toList),
     (0x015B, "s acute".toList),
     (0x015C, "S circumflex".toList),
     (0x015D, "s circumflex".toList),
     (0x015E, "S cedilla".toList),
     (0x015F, "s cedilla".toList),
     (0x0160, "S caron".toList),
     (0x0161, "s caron".toList),
     (0x0162, "T cedilla".toList),
     (0x0163, "t cedilla".toList),
     (0x0164, "T caron".toList),
     (0x0165, "t caron".toList),
     (0x0166, "T stroke".toList),
     (0x0167, "t stroke".toList),
     (0x0168, "U tilde".toList),
     (0x0169, "u tilde".toList),
     (0x016A, "U macron".toList),
     (0x016B, "u macron".toList),
     (0x016C, "U breve".toList),
     (0x016D, "u breve".toList),
     (0x016E, "U ring above".toList),
     (0x016F, "u ring above".toList),
     (0x0170, "U double acute".toList),
     (0x0171, "u double acute".toList),
     (0x0172, "U ogonek".toList),
     (0x0173, "u ogonek".toList),
     (0x0174, "W circumflex".toList),
     (0x0175, "w circumflex".toList),
     (0x0176, "Y circumflex".toList),
     (0x0177, "y circumflex".toList),
     (0x0178, "Y diaeresis".toList),
     (0x0179, "Z acute".toList),
     (0x017A, "z acute".toList),
     (0x017B, "Z dot above".toList),
     (0x017C, "z dot above".toList),
     (0x017D, "Z caron".toList),
     (0x017E, "z caron".toList),
     (0x0192, "f HOOK".toList),
     (0x0218, "S comma below".toList),
     (0x0219, "s comma below".toList),
     (0x021A, "T comma below".toList),
     (0x021B, "t comma below".toList),
     (0x02C6, "Circumflex".toList),
     (0x02C7, "Caron".toList),
     (0x02D8, "Breve".toList),
     (0x02D9, "Dot above".toList),
     (0x02DB, "Ogonek".toList),
     (0x02DC, "Small tilde".toList),
     (0x02DD, "Double acute".toList)]

/-- Model of `SourceGenerator::wchar`: result text plus the optional description
that the source pushes into the `descs` comment list. -/
def wchar (numOnly : Bool) (value : Value) : Wstr × Option Wstr :=
  match (if numOnly then none else tableFind wchar_symbols value) with
  | some name => (name, none)
  | none =>
    if value = 39 ∨ value = 92 then
      (['L', qc, bsl, Char.ofNat value, qc], none)
    else if 32 ≤ value ∧ value < 127 then
      (['L', qc, Char.ofNat value, qc], none)
    else
      ('0' :: 'x' :: padZero 4 (natHexDigits value),
        if numOnly then none else tableFind wchar_descriptions value)

/-- Per-character body of the `SourceGenerator::wstring` loop. -/
def wstringChar (c : Char) : Wstr :=
  match tableFind wchar_literals c.toNat with
  | some esc => esc
  | none =>
    if 32 ≤ c.toNat ∧ c.toNat < 127 then [c]
    else bsl :: 'x' :: padZero 4 (natHexDigitsLower c.toNat)

/-- Model of `SourceGenerator::wstring`: `NULL` for a null pointer, else an
`L"..."` literal.  Note the source never consults the `-n` option here. -/
def wstring (value : Option Wstr) : Wstr :=
  match value with
  | none => "NULL".toList
  | some s => 'L' :: dq :: s.foldr (fun c acc => wstringChar c ++ acc) [dq]

/-! ## Extent tracker: `DataStructure` and `SourceGenerator::sortDataStructures` -/

/-- One discovered data structure: `{WString name; const void* address;
size_t size}`.  Addresses are naturals; `end` is `address + size`. -/
structure DataStructure where
  name : Wstr
  address : Nat
  size : Nat
deriving DecidableEq, Repr

/-- Address one past the last byte (`DataStructure::end`). -/
def dsEnd (d : DataStructure) : Nat := d.address + d.size

/-- Modelled from the spec: `IsZero(from, to)` (strutils, not under `src/`)
checks that "every byte strictly between them is zero"; an empty or
reversed range holds vacuously.  `mem` maps an address to the byte
stored there. -/
def isZeroRange (mem : Nat → Nat) (a b : Nat) : Bool :=
  (List.range (b - a)).all fun i => mem (a + i) == 0

/-- Merge condition of the `sortDataStructures` loop: same name, and the
structures touch exactly or are separated only by zero bytes. -/
def mergeCond (mem : Nat → Nat) (p c : DataStructure) : Bool :=
  p.name == c.name && (dsEnd p == c.address || isZeroRange mem (dsEnd p) c.address)

/-- Name of a synthetic gap structure: `"Padding"` when the gap holds only
zero bytes, else `"Unreferenced"`. -/
def gapName (mem : Nat → Nat) (p c : DataStructure) : Wstr :=
  if isZeroRange mem (dsEnd p) c.address then "Padding".toList
  else "Unreferenced".toList

/-- The scan loop of `SourceGenerator::sortDataStructures` over the sorted
list, with `previous` as the first argument.  The source advances
`previous` to a freshly inserted gap structure and immediately compares it
with `current`; since the gap ends exactly at `current`, that comparison
merges when the names are equal and just advances otherwise — the two
possibilities are written out here so that the recursion is structural. -/
def scanMerge (mem : Nat → Nat) : DataStructure → List DataStructure → List DataStructure
  | p, [] => [p]
  | p, c :: rest =>
    if mergeCond mem p c then
      scanMerge mem ⟨p.name, p.address, c.address + c.size - p.address⟩ rest
    else if dsEnd p < c.address then
      let g : DataStructure := ⟨gapName mem p c, dsEnd p, c.address - dsEnd p⟩
      if g.name == c.name then
        p :: scanMerge mem ⟨g.name, g.address, c.address + c.size - g.address⟩ rest
      else
        p :: g :: scanMerge mem c rest
    else
      p :: scanMerge mem c rest

/-- One step of the stable sort on start addresses: the new element is
placed after every already placed element whose address is not larger,
matching the stable `std::list::sort` with `operator<` on `address`. -/
def insertByAddr (x : DataStructure) : List DataStructure → List DataStructure
  | [] => [x]
  | y :: ys => if y.address ≤ x.address then y :: insertByAddr x ys else x :: y :: ys

/-- Stable sort by start address (ties keep input order). -/
def sortByAddr (l : List DataStructure) : List DataStructure :=
  l.foldl (fun acc x => insertByAddr x acc) []

/-- Model of `SourceGenerator::sortDataStructures`: sort by address, then merge
same-named zero-separated neighbours and classify the remaining gaps. -/
def sortDataStructures (mem : Nat → Nat) (l : List DataStructure) : List DataStructure :=
  match sortByAddr l with
  | [] => []
  | p :: rest => scanMerge mem p rest

/-! ## Sentinel-terminated walks (iteration skeletons)

`genVkToBits` walks an array of `VK_TO_BIT {BYTE Vk; BYTE ModBits;}`
(stride 2) until `Vk == 0`; `genSubVkToWchar` walks records of
externally supplied byte stride `size` until `VirtualKey == 0`.  The
loops carry no iteration bound in the source; the walk is modelled with
explicit fuel, `none` meaning that the given number of loop iterations
did not reach a sentinel.  Only the control flow and the decoded keys are
modelled; the formatting done inside the loop body has no influence on
iteration. -/

/-- Record walk of `genVkToBits`: `(Vk, ModBits)` pairs until `Vk == 0`. -/
def vkToBitsRecords (mem : Nat → Nat) : Nat → Nat → Option (List (Nat × Nat))
  | 0, _ => none
  | fuel + 1, addr =>
    if mem addr = 0 then some []
    else (vkToBitsRecords mem fuel (addr + 2)).map fun l => (mem addr, mem (addr + 1)) :: l

/-- Record walk of `genSubVkToWchar`: keys (`VirtualKey`, byte at offset 0)
of consecutive records of byte stride `size`, until the key is zero. -/
def vkToWcharRecords (mem : Nat → Nat) (size : Nat) : Nat → Nat → Option (List Nat)
  | 0, _ => none
  | fuel + 1, addr =>
    if mem addr = 0 then some []
    else (vkToWcharRecords mem size fuel (addr + size)).map fun l => mem addr :: l

/-! ## Root structure emission (`SourceGenerator::generate`) -/

/-- The fields of `KBDTABLES` read by `SourceGenerator::generate`.
Pointers are nullable addresses. -/
structure KBDTABLES where
  pCharModifiers : Option Nat
  pVkToWcharTable : Option Nat
  pDeadKey : Option Nat
  pKeyNames : Option Nat
  pKeyNamesExt : Option Nat
  pKeyNamesDead : Option Nat
  pusVSCtoVK : Option Nat
  bMaxVSCtoVK : Nat
  pVSCtoVK_E0 : Option Nat
  pVSCtoVK_E1 : Option Nat
  fLocaleFlags : Nat
  nLgMax : Nat
  cbLgEntry : Nat
  pLigature : Option Nat
  dwType : Nat
  dwSubType : Nat
deriving DecidableEq, Repr

/-- The keyboard type used for the `#define KBD_TYPE` line: the `-t`
option if positive, else the table's `dwType` when plausible
(`0 < dwType < 48`), else the documented fallback `4`. -/
def kbdTypeValue (optKbdType : Int) (t : KBDTABLES) : Int :=
  if optKbdType > 0 then optKbdType
  else if t.dwType > 0 ∧ t.dwType < 48 then (t.dwType : Int)
  else 4

/-- Value text emitted for `.dwType` in the root structure literal:
`<< tables.dwType` streams the DWORD in decimal, unguarded. -/
def dwTypeField (t : KBDTABLES) : Wstr := natDigits t.dwType

/-- Value text emitted for `.dwSubType` in the root structure literal. -/
def dwSubTypeField (t : KBDTABLES) : Wstr := natDigits t.dwSubType

/-- Value text emitted for `.bMaxVSCtoVK`: the literal `0` when
`pusVSCtoVK` is null, else `ARRAYSIZE(scancode_to_vk)` — never the
header's own `bMaxVSCtoVK` count. -/
def bMaxVSCtoVKField (t : KBDTABLES) : Wstr :=
  match t.pusVSCtoVK with
  | none => "0,".toList
  | some _ => "ARRAYSIZE(scancode_to_vk),".toList

/-- Value text emitted for `.cbLgEntry`: the literal `0` when `pLigature`
is null, else `sizeof(ligatures[0])` — never the header's own
`cbLgEntry`. -/
def cbLgEntryField (t : KBDTABLES) : Wstr :=
  match t.pLigature with
  | none => "0,".toList
  | some _ => "sizeof(ligatures[0]),".toList

/-! ## Auxiliary lemmas -/

theorem head?_append_left {α : Type} (l m : List α) (h : l ≠ []) :
    (l ++ m).head? = l.head? := by
  cases l with
  | nil => exact absurd rfl h
  | cons a t => rfl

theorem lor_eq_zero_iff (a b : Nat) : a ||| b = 0 ↔ a = 0 ∧ b = 0 := by
  constructor
  · intro h
    have hbit : ∀ i, a.testBit i = false ∧ b.testBit i = false := by
      intro i
      have h2 := congrArg (fun x => Nat.testBit x i) h
      simp only [Nat.testBit_lor, Nat.zero_testBit, Bool.or_eq_false_iff] at h2
      exact h2
    exact ⟨Nat.zero_of_testBit_eq_false fun i => (hbit i).1,
      Nat.zero_of_testBit_eq_false fun i => (hbit i).2⟩
  · rintro ⟨rfl, rfl⟩
    rfl

theorem digitsCore_head (base : Nat) (digit : Nat → Char) (hbase : 2 ≤ base) :
    ∀ n fuel acc, n < fuel →
      ∃ d tail, digitsCore base digit fuel n acc = digit d :: tail ∧ d < base := by
  intro n
  induction n using Nat.strong_induction_on with
  | _ n ih =>
    intro fuel acc hf
    cases fuel with
    | zero => omega
    | succ f =>
      by_cases h : n < base
      · exact ⟨n, acc, by simp [digitsCore, h], h⟩
      · have h1 : n / base < n := Nat.div_lt_self (by omega) (by omega)
        obtain ⟨d, tail, heq, hd⟩ :=
          ih (n / base) h1 f (digit (n % base) :: acc) (by omega)
        exact ⟨d, tail, by simp [digitsCore, h, heq], hd⟩

theorem natDigits_head (n : Nat) :
    ∃ d tail, natDigits n = digitChar d :: tail ∧ d < 10 :=
  digitsCore_head 10 digitChar (by omega) n (n + 1) [] (by omega)

theorem digitChar_isDigit (d : Nat) (hd : d < 10) : (digitChar d).isDigit = true := by
  interval_cases d <;> decide

/-- Every rendering produced by `integer` starts with a decimal digit or a
minus sign. -/
theorem integer_head (v : Value) (h : Int) :
    ∃ c tail, integer v h = c :: tail ∧ (c.isDigit = true ∨ c = '-') := by
  unfold integer
  by_cases hh : h ≤ 0
  · simp only [if_pos hh]
    unfold decFmt
    by_cases hv : v < 2 ^ 63
    · simp only [if_pos hv]
      obtain ⟨d, tail, heq, hd⟩ := natDigits_head v
      exact ⟨digitChar d, tail, heq, Or.inl (digitChar_isDigit d hd)⟩
    · simp only [if_neg hv]
      exact ⟨'-', _, rfl, Or.inr rfl⟩
  · simp only [if_neg hh]
    exact ⟨'0', _, rfl, Or.inl (by decide)⟩

/-- A name is "symbol-like" when it is nonempty and starts neither with a
digit nor with a minus sign (every mnemonic in the program's symbol
tables does). -/
def goodNameB (n : Wstr) : Bool :=
  match n with
  | [] => false
  | c :: _ => !c.isDigit && c != '-'

theorem goodNameB_ne_nil {n : Wstr} (hn : goodNameB n = true) : n ≠ [] := by
  cases n with
  | nil => simp [goodNameB] at hn
  | cons c t => exact fun hc => List.noConfusion hc

theorem goodName_head_ne_integer {n : Wstr} (hn : goodNameB n = true)
    {s : Wstr} (hhead : s.head? = n.head?) (v : Value) (h : Int) :
    s ≠ integer v h := by
  cases n with
  | nil => simp [goodNameB] at hn
  | cons c t =>
    simp only [goodNameB, Bool.and_eq_true, Bool.not_eq_true', bne_iff_ne, ne_eq] at hn
    obtain ⟨h1, h2⟩ := hn
    obtain ⟨c2, tail, heq, hc2⟩ := integer_head v h
    intro hcontra
    rw [hcontra, heq] at hhead
    simp only [List.head?_cons, Option.some.injEq] at hhead
    cases hc2 with
    | inl hd => rw [hhead, h1] at hd; cases hd
    | inr hm => exact h2 (hhead.symm.trans hm)

theorem goodName_ne_integer {n : Wstr} (hn : goodNameB n = true) (v : Value) (h : Int) :
    n ≠ integer v h :=
  goodName_head_ne_integer hn (s := n) rfl v h

/-! ## Characterization of the `bitMask` loop -/

/-- The entries whose nonzero key bits are fully contained in `value` —
exactly the entries whose names the `bitMask` loop appends. -/
def matchedEntries (value : Value) (table : List SymEntry) : List SymEntry :=
  table.filter fun e => decide (e.1 ≠ 0 ∧ value &&& e.1 = e.1)

theorem matchedEntries_zero (table : List SymEntry) : matchedEntries 0 table = [] := by
  unfold matchedEntries
  rw [List.filter_eq_nil_iff]
  intro e _
  simp only [decide_eq_true_eq]
  rintro ⟨h1, h2⟩
  rw [Nat.zero_and] at h2
  exact h1 h2.symm

/-- With `value = 0` the loop returns the name of the zero-key entry when
the table has one, and otherwise leaves the accumulators untouched. -/
theorem bmLoop_zero (table : List SymEntry) (str : Wstr) (bits : Value) :
    bmLoop 0 table str bits =
      match table.find? (fun e => e.1 == 0) with
      | some e => Sum.inl e.2
      | none => Sum.inr (str, bits) := by
  induction table generalizing str bits with
  | nil => rfl
  | cons e rest ih =>
    by_cases h : e.1 = 0
    · simp [bmLoop, h, List.find?]
    · have hmatch : ¬(e.1 ≠ 0 ∧ (0 : Nat) &&& e.1 = e.1) := by
        rintro ⟨h1, h2⟩
        rw [Nat.zero_and] at h2
        exact h1 h2.symm
      have h0 : ¬((0 : Nat) = e.1) := fun hc => h hc.symm
      have hb : (e.1 == 0) = false := by simp [h]
      simp [bmLoop, h, hmatch, h0, hb, List.find?, ih]

/-- With `value ≠ 0` the loop never takes the early return; the final
`bits` accumulator is zero exactly when nothing was matched, and the head
of the final `str` accumulator is the head of the first matched name. -/
theorem bmLoop_spec (value : Value) (hv : value ≠ 0) :
    ∀ (table : List SymEntry) (str : Wstr) (bits : Value),
      (∀ e ∈ table, e.2 ≠ []) →
      ∃ str2 bits2,
        bmLoop value table str bits = Sum.inr (str2, bits2) ∧
        (bits2 = 0 ↔ bits = 0 ∧ matchedEntries value table = []) ∧
        (matchedEntries value table = [] → str2 = str ∧ bits2 = bits) ∧
        (str ≠ [] → str2.head? = str.head?) ∧
        (∀ e₀ es, str = [] → matchedEntries value table = e₀ :: es →
          str2.head? = e₀.2.head?) := by
  intro table
  induction table with
  | nil =>
    intro str bits _
    refine ⟨str, bits, rfl, by simp [matchedEntries], fun _ => ⟨rfl, rfl⟩,
      fun _ => rfl, ?_⟩
    intro e₀ es _ hm
    simp [matchedEntries] at hm
  | cons e rest ih =>
    intro str bits hnames
    have hne : ¬(e.1 = 0 ∧ value = 0) := fun hc => hv hc.2
    by_cases hm : e.1 ≠ 0 ∧ value &&& e.1 = e.1
    · obtain ⟨str2, bits2, heq, hbz, hnil, hhead, _⟩ :=
        ih (if str = [] then e.2 else str ++ barSep ++ e.2) (bits ||| e.1)
          (fun f hf => hnames f (List.mem_cons_of_mem e hf))
      have hmatched : matchedEntries value (e :: rest) = e :: matchedEntries value rest := by
        simp [matchedEntries, List.filter_cons, hm]
      refine ⟨str2, bits2, ?_, ?_, ?_, ?_, ?_⟩
      · simp only [bmLoop, if_neg hne, if_pos hm]
        exact heq
      · rw [hmatched]
        constructor
        · intro hz
          rw [hbz, lor_eq_zero_iff] at hz
          exact absurd hz.1.2 hm.1
        · rintro ⟨_, hc⟩
          exact absurd hc (List.cons_ne_nil e _)
      · rw [hmatched]
        intro hc
        exact absurd hc (List.cons_ne_nil e _)
      · intro hstr
        have hne2 : str ++ barSep ≠ [] := by
          intro hc
          exact hstr (List.append_eq_nil.mp hc).1
        have hpre : (if str = [] then e.2 else str ++ barSep ++ e.2) ≠ [] := by
          rw [if_neg hstr]
          intro hc
          exact hne2 (List.append_eq_nil.mp hc).1
        rw [hhead hpre, if_neg hstr, head?_append_left _ _ hne2,
          head?_append_left _ _ hstr]
      · intro e₀ es hstrnil hmeq
        rw [hmatched] at hmeq
        injection hmeq with he0 _
        have hexp : (if str = [] then e.2 else str ++ barSep ++ e.2) = e.2 := if_pos hstrnil
        have hnn : e.2 ≠ [] := hnames e (List.mem_cons_self e rest)
        have hpre2 : (if str = [] then e.2 else str ++ barSep ++ e.2) ≠ [] := by
          rw [hexp]; exact hnn
        rw [hhead hpre2, hexp, ← he0]
    · obtain ⟨str2, bits2, heq, hbz, hnil, hhead, hfirst⟩ :=
        ih str bits (fun f hf => hnames f (List.mem_cons_of_mem e hf))
      have hmatched : matchedEntries value (e :: rest) = matchedEntries value rest := by
        simp [matchedEntries, List.filter_cons, hm]
      refine ⟨str2, bits2, ?_, by rw [hmatched]; exact hbz,
        by rw [hmatched]; exact hnil, hhead, ?_⟩
      · simp only [bmLoop, if_neg hne, if_neg hm]
        exact heq
      · intro e₀ es hstrnil hmeq
        rw [hmatched] at hmeq
        exact hfirst e₀ es hstrnil hmeq

theorem bitMask_off (table : SymbolTable) (value : Value) (hexDigits : Int) :
    bitMask false table value hexDigits =
      match bmLoop value table [] 0 with
      | Sum.inl name => name
      | Sum.inr (str, bits) =>
        if bits ≠ 0 then
          if value &&& cpl64 bits ≠ 0 then
            (if str = [] then [] else str ++ barSep) ++
              residualFmt hexDigits (value &&& cpl64 bits)
          else str
        else integer value hexDigits := rfl

/-- C1 (amended): with numeric-only mode off and symbol-like names,
`bitMask` returns the plain numeric rendering `integer value hexDigits`
if and only if no nonzero key of the table matched the value AND the
zero-key early return did not fire (i.e. it is not the case that
`value = 0` while the table declares a zero-key entry, which returns that
entry's name instead).  In particular, whenever at least one nonzero key
matched, the result starts with the first matched symbol name and is
never the plain numeric rendering. -/
theorem c1_bitMask_numeric_iff (table : SymbolTable) (value : Value) (hexDigits : Int)
    (hnames : ∀ e ∈ table, goodNameB e.2 = true) :
    bitMask false table value hexDigits = integer value hexDigits ↔
      (matchedEntries value table = [] ∧ ¬(value = 0 ∧ ∃ e ∈ table, e.1 = 0)) := by
  rw [bitMask_off]
  by_cases hv : value = 0
  · subst hv
    rw [bmLoop_zero]
    cases hfind : table.find? (fun e => e.1 == 0) with
    | some e =>
      have hmem : e ∈ table := List.mem_of_find?_eq_some hfind
      have hgood := hnames e hmem
      have hkey : e.1 = 0 := by
        have := List.find?_some hfind
        simpa using this
      refine iff_of_false (goodName_ne_integer hgood 0 hexDigits) ?_
      rintro ⟨_, hnig⟩
      exact hnig ⟨rfl, e, hmem, hkey⟩
    | none =>
      have hnozero : ∀ e ∈ table, e.1 ≠ 0 := by
        intro e hmem
        have := List.find?_eq_none.mp hfind e hmem
        simpa using this
      refine iff_of_true (by simp) ⟨matchedEntries_zero table, ?_⟩
      rintro ⟨_, e, hmem, hkey⟩
      exact hnozero e hmem hkey
  · obtain ⟨str2, bits2, heq, hbz, hnil, hhead, hfirst⟩ :=
      bmLoop_spec value hv table [] 0 (fun e he => goodNameB_ne_nil (hnames e he))
    rw [heq]
    by_cases hmt : matchedEntries value table = []
    · obtain ⟨hs, hb⟩ := hnil hmt
      subst hs hb
      exact iff_of_true (by simp) ⟨hmt, fun hc => hv hc.1⟩
    · obtain ⟨e₀, es, hmeq⟩ := List.exists_cons_of_ne_nil hmt
      have hbits : bits2 ≠ 0 := by
        intro hc
        rw [hbz] at hc
        exact hmt hc.2
      have hh : str2.head? = e₀.2.head? := hfirst e₀ es rfl hmeq
      have hmemE : e₀ ∈ table := by
        have : e₀ ∈ matchedEntries value table := by
          rw [hmeq]; exact List.mem_cons_self e₀ es
        exact List.mem_of_mem_filter this
      have hgood := hnames e₀ hmemE
      have hstr2nn : str2 ≠ [] := by
        intro hc
        rw [hc] at hh
        have hnn : e₀.2 ≠ [] := goodNameB_ne_nil hgood
        cases hg : e₀.2 with
        | nil => exact hnn hg
        | cons a t => rw [hg] at hh; simp at hh
      have hrhs : ¬(matchedEntries value table = [] ∧
          ¬(value = 0 ∧ ∃ e ∈ table, e.1 = 0)) := by
        rintro ⟨hc, _⟩
        exact hmt hc
      by_cases hres : value &&& cpl64 bits2 ≠ 0
      · simp only [if_pos hbits, if_pos hres, if_neg hstr2nn]
        refine iff_of_false (goodName_head_ne_integer hgood ?_ value hexDigits) hrhs
        rw [head?_append_left _ _ (fun hc => hstr2nn (List.append_eq_nil.mp hc).1),
          head?_append_left _ _ hstr2nn]
        exact hh
      · simp only [if_pos hbits, if_neg hres]
        exact iff_of_false (goodName_head_ne_integer hgood hh value hexDigits) hrhs

/-- C1 counterexample to the claim as stated: for the table
`{0 ↦ NONE, 1 ↦ A}` at value `0`, zero of the table's flag bits match,
yet `bitMask` returns the zero-key symbol `NONE`, not the plain numeric
rendering `integer 0 0 = "0"`. -/
theorem c1_counterexample :
    matchedEntries 0 (mapOfList [(0, "NONE".toList), (1, "A".toList)]) = [] ∧
    bitMask false (mapOfList [(0, "NONE".toList), (1, "A".toList)]) 0 0 = "NONE".toList ∧
    "NONE".toList ≠ integer 0 0 := by
  refine ⟨by decide, by decide, by decide⟩

/-- Witness for `c1_bitMask_numeric_iff` at a concrete input. -/
theorem c1_witness :
    bitMask false (mapOfList [(1, "A".toList)]) 2 0 = integer 2 0 :=
  (c1_bitMask_numeric_iff (mapOfList [(1, "A".toList)]) 2 0 (by decide)).mpr (by decide)

/-- C2 (code bug): the residual bits appended by `bitMask` are NOT a
hexadecimal literal.  The source formats them with
`Format(L"0x%0*lld", ...)` — a `0x` marker followed by DECIMAL digits.
At value `0x0B` over `{1 ↦ A}` the residual is `10 = 0xA`, and the
program emits `"A | 0x10"` where the spec's hexadecimal literal would be
`"A | 0xA"`.  The spec's own example `bitMask({1:A,4:B}, 0x09)` happens
to agree because the residual `8` has the same decimal and hexadecimal
digits (last conjunct). -/
theorem c2_residual_is_decimal_not_hex :
    bitMaskFromDecl false [(1, "A".toList)] 11 1 = "A | 0x10".toList ∧
    "A".toList ++ barSep ++ ('0' :: 'x' :: padZero 1 (natHexDigits (11 &&& cpl64 1))) =
      "A | 0xA".toList ∧
    "A | 0x10".toList ≠ "A | 0xA".toList ∧
    bitMaskFromDecl false [(1, "A".toList), (4, "B".toList)] 9 1 = "A | 0x8".toList := by
  refine ⟨by decide, by decide, by decide, by decide⟩

theorem mapInsert_append (e : SymEntry) :
    ∀ acc : SymbolTable, (∀ f ∈ acc, f.1 < e.1) → mapInsert e acc = acc ++ [e] := by
  intro acc
  induction acc with
  | nil => intro _; rfl
  | cons f rest ih =>
    intro hlt
    have hf : f.1 < e.1 := hlt f (List.mem_cons_self f rest)
    simp [mapInsert, hf, ih (fun g hg => hlt g (List.mem_cons_of_mem f hg))]

theorem mapOfList_foldl_sorted (decl : List SymEntry) :
    ∀ acc : SymbolTable, List.Pairwise (fun a b => a.1 < b.1) (acc ++ decl) →
      decl.foldl (fun a e => mapInsert e a) acc = acc ++ decl := by
  induction decl with
  | nil => intro acc _; simp
  | cons e ds ih =>
    intro acc hp
    have hlt : ∀ f ∈ acc, f.1 < e.1 := by
      rw [List.pairwise_append] at hp
      exact fun f hf => hp.2.2 f hf e (List.mem_cons_self e ds)
    have hstep : mapInsert e acc = acc ++ [e] := mapInsert_append e acc hlt
    have hp2 : List.Pairwise (fun a b => a.1 < b.1) ((acc ++ [e]) ++ ds) := by
      rw [List.append_assoc]
      exact hp
    calc (e :: ds).foldl (fun a f => mapInsert f a) acc
        = ds.foldl (fun a f => mapInsert f a) (mapInsert e acc) := rfl
      _ = ds.foldl (fun a f => mapInsert f a) (acc ++ [e]) := by rw [hstep]
      _ = (acc ++ [e]) ++ ds := ih (acc ++ [e]) hp2
      _ = acc ++ (e :: ds) := by simp

theorem mapOfList_sorted_id (decl : List SymEntry)
    (hsorted : List.Pairwise (fun a b => a.1 < b.1) decl) :
    mapOfList decl = decl := by
  have := mapOfList_foldl_sorted decl [] (by simpa using hsorted)
  simpa [mapOfList] using this

/-- C3 (amended): `bitMask` iterates the `std::map` entry sequence,
which is ascending key order, not declaration order.  When the
initializer list is already written with strictly ascending keys — as
every symbol table declared in this program is — the map's entry sequence
equals the declared sequence, so the two orders coincide. -/
theorem c3_ascending_decl_iteration (decl : List SymEntry)
    (hsorted : List.Pairwise (fun a b => a.1 < b.1) decl) :
    mapOfList decl = decl ∧
    ∀ numOnly value hexDigits,
      bitMaskFromDecl numOnly decl value hexDigits =
        bitMaskDeclaredOrder numOnly decl value hexDigits := by
  have hid := mapOfList_sorted_id decl hsorted
  refine ⟨hid, fun numOnly value hexDigits => ?_⟩
  unfold bitMaskFromDecl bitMaskDeclaredOrder
  rw [hid]

/-- C3 counterexample to the claim as stated: for the table declared
in the order `{4 ↦ B, 1 ↦ A}`, the program joins the symbols in key
order (`"A | B"`), not in declaration order (`"B | A"`). -/
theorem c3_counterexample :
    bitMaskFromDecl false [(4, "B".toList), (1, "A".toList)] 5 0 = "A | B".toList ∧
    bitMaskDeclaredOrder false [(4, "B".toList), (1, "A".toList)] 5 0 = "B | A".toList ∧
    "A | B".toList ≠ "B | A".toList := by
  refine ⟨by decide, by decide, by decide⟩

/-- Witness for `c3_ascending_decl_iteration` at a concrete input. -/
theorem c3_witness :
    bitMaskFromDecl false [(1, "A".toList), (4, "B".toList)] 5 0 =
      bitMaskDeclaredOrder false [(1, "A".toList), (4, "B".toList)] 5 0 :=
  (c3_ascending_decl_iteration [(1, "A".toList), (4, "B".toList)]
    (by simp)).2 false 5 0

/-! ## Extent reconciliation lemmas -/

theorem isZeroRange_iff (mem : Nat → Nat) (a b : Nat) :
    isZeroRange mem a b = true ↔ ∀ x, a ≤ x → x < b → mem x = 0 := by
  unfold isZeroRange
  rw [List.all_eq_true]
  constructor
  · intro h x hax hxb
    have := h (x - a) (List.mem_range.mpr (by omega))
    have hx : a + (x - a) = x := by omega
    rw [hx] at this
    simpa using this
  · intro h i hi
    rw [List.mem_range] at hi
    simp only [beq_iff_eq]
    exact h (a + i) (by omega) (by omega)

/-- C4: after `sortDataStructures` sorts by start address, the scan
classifies each adjacent pair `(p, c)`: a pair satisfying the merge
condition — same name and touching exactly or separated only by zero
bytes — is merged into one structure spanning from `p`'s start to `c`'s
end, re-scanning from the extended predecessor (first conjunct); a pair
with a remaining gap (`dsEnd p < c.address`) gets a synthetic structure
covering exactly the gap, named `Padding` when every gap byte is zero and
`Unreferenced` otherwise, the scan continuing with that synthetic
structure as predecessor (second conjunct).  The remaining conjuncts
characterise the merge condition and the gap name in those terms. -/
theorem c4_pair_classification (mem : Nat → Nat) (p c : DataStructure)
    (rest : List DataStructure) :
    (mergeCond mem p c = true →
      scanMerge mem p (c :: rest) =
        scanMerge mem ⟨p.name, p.address, c.address + c.size - p.address⟩ rest) ∧
    (mergeCond mem p c = false → dsEnd p < c.address →
      scanMerge mem p (c :: rest) =
        p :: scanMerge mem ⟨gapName mem p c, dsEnd p, c.address - dsEnd p⟩ (c :: rest)) ∧
    (mergeCond mem p c = true ↔
      (p.name = c.name ∧ (dsEnd p = c.address ∨
        ∀ x, dsEnd p ≤ x → x < c.address → mem x = 0))) ∧
    (gapName mem p c = "Padding".toList ↔
      ∀ x, dsEnd p ≤ x → x < c.address → mem x = 0) ∧
    (gapName mem p c = "Unreferenced".toList ↔
      ¬∀ x, dsEnd p ≤ x → x < c.address → mem x = 0) := by
  refine ⟨?_, ?_, ?_, ?_, ?_⟩
  · intro hm
    simp [scanMerge, hm]
  · intro hm hgap
    have hgap2 : p.address + p.size < c.address := hgap
    have hend : dsEnd ⟨gapName mem p c, dsEnd p, c.address - dsEnd p⟩ = c.address := by
      show p.address + p.size + (c.address - (p.address + p.size)) = c.address
      omega
    have hmc : mergeCond mem ⟨gapName mem p c, dsEnd p, c.address - dsEnd p⟩ c =
        (gapName mem p c == c.name) := by
      simp [mergeCond, hend]
    by_cases hn : (gapName mem p c == c.name) = true
    · simp [scanMerge, hm, hgap, hn, hmc]
    · have hn2 : (gapName mem p c == c.name) = false := by
        simp only [Bool.not_eq_true] at hn
        exact hn
      have hlt : ¬(dsEnd ⟨gapName mem p c, dsEnd p, c.address - dsEnd p⟩ < c.address) := by
        rw [hend]
        omega
      simp [scanMerge, hm, hgap, hn2, hmc, hlt]
  · simp [mergeCond, Bool.and_eq_true, Bool.or_eq_true, beq_iff_eq, isZeroRange_iff]
  · unfold gapName
    by_cases hz : isZeroRange mem (dsEnd p) c.address = true
    · simp only [if_pos hz]
      exact iff_of_true (by trivial) ((isZeroRange_iff mem _ _).mp hz)
    · simp only [if_neg hz]
      refine iff_of_false (by decide) ?_
      intro hall
      exact hz ((isZeroRange_iff mem _ _).mpr hall)
  · unfold gapName
    by_cases hz : isZeroRange mem (dsEnd p) c.address = true
    · simp only [if_pos hz]
      refine iff_of_false (by decide) ?_
      intro hc
      exact hc ((isZeroRange_iff mem _ _).mp hz)
    · simp only [if_neg hz]
      refine iff_of_true (by trivial) ?_
      intro hall
      exact hz ((isZeroRange_iff mem _ _).mpr hall)

/-- Witness for `c4_pair_classification`: both classification branches at
concrete inputs (a merge of touching same-named structures, and an
all-zero gap between differently named structures). -/
theorem c4_witness :
    scanMerge (fun _ => 0) ⟨"A".toList, 0, 2⟩ [⟨"A".toList, 2, 2⟩] =
      scanMerge (fun _ => 0) ⟨"A".toList, 0, 4⟩ [] ∧
    scanMerge (fun _ => 0) ⟨"A".toList, 0, 2⟩ [⟨"B".toList, 4, 1⟩] =
      ⟨"A".toList, 0, 2⟩ ::
        scanMerge (fun _ => 0) ⟨gapName (fun _ => 0) ⟨"A".toList, 0, 2⟩ ⟨"B".toList, 4, 1⟩, 2, 2⟩
          [⟨"B".toList, 4, 1⟩] :=
  ⟨(c4_pair_classification (fun _ => 0) ⟨"A".toList, 0, 2⟩ ⟨"A".toList, 2, 2⟩ []).1
      (by decide),
    (c4_pair_classification (fun _ => 0) ⟨"A".toList, 0, 2⟩ ⟨"B".toList, 4, 1⟩ []).2.1
      (by decide) (by decide)⟩

/-- Order on extents used by the sort: comparison of start addresses. -/
def addrLe (a b : DataStructure) : Prop := a.address ≤ b.address

instance : IsTrans DataStructure addrLe :=
  ⟨fun _ _ _ h1 h2 => Nat.le_trans h1 h2⟩

theorem insertByAddr_mem (x a : DataStructure) :
    ∀ l, a ∈ insertByAddr x l ↔ a = x ∨ a ∈ l := by
  intro l
  induction l with
  | nil => simp [insertByAddr]
  | cons y ys ih =>
    by_cases h : y.address ≤ x.address
    · simp only [insertByAddr, if_pos h, List.mem_cons, ih]
      tauto
    · simp only [insertByAddr, if_neg h, List.mem_cons]

theorem insertByAddr_pairwise (x : DataStructure) :
    ∀ l, List.Pairwise addrLe l → List.Pairwise addrLe (insertByAddr x l) := by
  intro l
  induction l with
  | nil => intro _; simp [insertByAddr, addrLe]
  | cons y ys ih =>
    intro hp
    rw [List.pairwise_cons] at hp
    obtain ⟨hy, hys⟩ := hp
    by_cases h : y.address ≤ x.address
    · simp only [insertByAddr, if_pos h]
      rw [List.pairwise_cons]
      refine ⟨?_, ih hys⟩
      intro b hb
      rw [insertByAddr_mem] at hb
      cases hb with
      | inl he => rw [he]; exact h
      | inr hmem => exact hy b hmem
    · simp only [insertByAddr, if_neg h]
      rw [List.pairwise_cons]
      refine ⟨?_, List.pairwise_cons.mpr ⟨hy, hys⟩⟩
      intro b hb
      rw [List.mem_cons] at hb
      cases hb with
      | inl he =>
        rw [he]
        show x.address ≤ y.address
        omega
      | inr hmem =>
        show x.address ≤ b.address
        have h1 : y.address ≤ b.address := hy b hmem
        omega

theorem foldlInsert_pairwise (l : List DataStructure) :
    ∀ acc, List.Pairwise addrLe acc →
      List.Pairwise addrLe (l.foldl (fun a x => insertByAddr x a) acc) := by
  induction l with
  | nil => intro acc h; exact h
  | cons x xs ih => intro acc h; exact ih _ (insertByAddr_pairwise x acc h)

theorem sortByAddr_pairwise (l : List DataStructure) :
    List.Pairwise addrLe (sortByAddr l) :=
  foldlInsert_pairwise l [] List.Pairwise.nil

theorem foldlInsert_mem (l : List DataStructure) :
    ∀ acc a, a ∈ l.foldl (fun a x => insertByAddr x a) acc ↔ a ∈ acc ∨ a ∈ l := by
  induction l with
  | nil => intro acc a; simp
  | cons x xs ih =>
    intro acc a
    rw [List.foldl_cons, ih, insertByAddr_mem]
    simp only [List.mem_cons]
    tauto

theorem sortByAddr_mem (l : List DataStructure) (a : DataStructure) :
    a ∈ sortByAddr l ↔ a ∈ l := by
  unfold sortByAddr
  rw [foldlInsert_mem]
  simp

theorem insertByAddr_append (x : DataStructure) :
    ∀ acc, (∀ y ∈ acc, y.address ≤ x.address) → insertByAddr x acc = acc ++ [x] := by
  intro acc
  induction acc with
  | nil => intro _; rfl
  | cons y ys ih =>
    intro hall
    have hy : y.address ≤ x.address := hall y (List.mem_cons_self y ys)
    simp only [insertByAddr, if_pos hy, List.cons_append]
    rw [ih (fun g hg => hall g (List.mem_cons_of_mem y hg))]

theorem foldlInsert_sorted_id (l : List DataStructure) :
    ∀ acc, List.Pairwise addrLe (acc ++ l) →
      l.foldl (fun a x => insertByAddr x a) acc = acc ++ l := by
  induction l with
  | nil => intro acc _; simp
  | cons x xs ih =>
    intro acc hp
    have hall : ∀ y ∈ acc, y.address ≤ x.address := by
      rw [List.pairwise_append] at hp
      exact fun y hy => hp.2.2 y hy x (List.mem_cons_self x xs)
    have hstep : insertByAddr x acc = acc ++ [x] := insertByAddr_append x acc hall
    have hp2 : List.Pairwise addrLe ((acc ++ [x]) ++ xs) := by
      rw [List.append_assoc]
      exact hp
    calc (x :: xs).foldl (fun a f => insertByAddr f a) acc
        = xs.foldl (fun a f => insertByAddr f a) (insertByAddr x acc) := rfl
      _ = xs.foldl (fun a f => insertByAddr f a) (acc ++ [x]) := by rw [hstep]
      _ = (acc ++ [x]) ++ xs := ih (acc ++ [x]) hp2
      _ = acc ++ (x :: xs) := by simp

theorem sortByAddr_sorted_id (l : List DataStructure)
    (h : List.Pairwise addrLe l) : sortByAddr l = l := by
  have := foldlInsert_sorted_id l [] (by simpa using h)
  simpa [sortByAddr] using this

theorem filter_addr_eq_nil (k : Nat) (l : List DataStructure)
    (hall : ∀ e ∈ l, k < e.address) :
    l.filter (fun e => e.address == k) = [] := by
  rw [List.filter_eq_nil_iff]
  intro e he
  have := hall e he
  simp only [beq_iff_eq]
  omega

theorem insertByAddr_filter (k : Nat) (x : DataStructure) :
    ∀ acc, List.Pairwise addrLe acc →
      (insertByAddr x acc).filter (fun e => e.address == k) =
        if x.address = k then acc.filter (fun e => e.address == k) ++ [x]
        else acc.filter (fun e => e.address == k) := by
  intro acc
  induction acc with
  | nil =>
    intro _
    by_cases hx : x.address = k
    · simp [insertByAddr, List.filter_cons, hx]
    · simp [insertByAddr, List.filter_cons, hx]
  | cons y ys ih =>
    intro hp
    rw [List.pairwise_cons] at hp
    obtain ⟨hy, hys⟩ := hp
    by_cases h : y.address ≤ x.address
    · have hin : insertByAddr x (y :: ys) = y :: insertByAddr x ys := by
        simp [insertByAddr, h]
      rw [hin]
      simp only [List.filter_cons]
      rw [ih hys]
      by_cases hyk : (y.address == k) = true
      · rw [if_pos hyk, if_pos hyk]
        by_cases hx : x.address = k
        · rw [if_pos hx, if_pos hx, List.cons_append]
        · rw [if_neg hx, if_neg hx]
      · rw [if_neg hyk, if_neg hyk]
    · have hin : insertByAddr x (y :: ys) = x :: y :: ys := by
        simp [insertByAddr, h]
      by_cases hx : x.address = k
      · have hnil : (y :: ys).filter (fun e => e.address == k) = [] := by
          apply filter_addr_eq_nil
          intro e he
          rw [List.mem_cons] at he
          cases he with
          | inl he2 =>
            rw [he2]
            omega
          | inr he2 =>
            have h1 : addrLe y e := hy e he2
            have h2 : y.address ≤ e.address := h1
            omega
        have hxb : (x.address == k) = true := by simp [hx]
        rw [hin, List.filter_cons, if_pos hxb, hnil, if_pos hx]
        simp
      · have hxb : ¬((x.address == k) = true) := by simp [hx]
        rw [hin, List.filter_cons, if_neg hxb, if_neg hx]

theorem foldlInsert_filter (k : Nat) (l : List DataStructure) :
    ∀ acc, List.Pairwise addrLe acc →
      (l.foldl (fun a x => insertByAddr x a) acc).filter (fun e => e.address == k) =
        acc.filter (fun e => e.address == k) ++ l.filter (fun e => e.address == k) := by
  induction l with
  | nil => intro acc _; simp
  | cons x xs ih =>
    intro acc hp
    rw [List.foldl_cons, ih _ (insertByAddr_pairwise x acc hp),
      insertByAddr_filter k x acc hp, List.filter_cons]
    by_cases hx : x.address = k
    · simp [hx]
    · simp [hx]

/-- Stability of the sort: for every start address, the elements carrying
that address appear in the output in their input order. -/
theorem sortByAddr_stable (k : Nat) (l : List DataStructure) :
    (sortByAddr l).filter (fun e => e.address == k) =
      l.filter (fun e => e.address == k) := by
  have := foldlInsert_filter k l [] List.Pairwise.nil
  simpa [sortByAddr] using this

theorem gapName_cases (mem : Nat → Nat) (p c : DataStructure) :
    gapName mem p c = "Padding".toList ∨ gapName mem p c = "Unreferenced".toList := by
  unfold gapName
  by_cases hz : isZeroRange mem (dsEnd p) c.address = true
  · exact Or.inl (if_pos hz)
  · exact Or.inr (if_neg hz)

theorem scanMerge_not_merge (mem : Nat → Nat) (p c : DataStructure)
    (rest : List DataStructure) (hm : mergeCond mem p c = false) :
    ∃ X, scanMerge mem p (c :: rest) = p :: X := by
  by_cases hgap : dsEnd p < c.address
  · by_cases hn : (gapName mem p c == c.name) = true
    · refine ⟨scanMerge mem ⟨gapName mem p c, dsEnd p, c.address + c.size - dsEnd p⟩ rest, ?_⟩
      simp [scanMerge, hm, hgap, hn]
    · have hn2 : (gapName mem p c == c.name) = false := by
        simp only [Bool.not_eq_true] at hn
        exact hn
      refine ⟨⟨gapName mem p c, dsEnd p, c.address - dsEnd p⟩ :: scanMerge mem c rest, ?_⟩
      simp [scanMerge, hm, hgap, hn2]
  · refine ⟨scanMerge mem c rest, ?_⟩
    simp [scanMerge, hm, hgap]

theorem scanMerge_head (mem : Nat → Nat) :
    ∀ (l : List DataStructure) (p : DataStructure),
      ∃ s t, scanMerge mem p l = ⟨p.name, p.address, s⟩ :: t := by
  intro l
  induction l with
  | nil => intro p; exact ⟨p.size, [], rfl⟩
  | cons c rest ih =>
    intro p
    by_cases hm : mergeCond mem p c = true
    · obtain ⟨s, t, heq⟩ := ih ⟨p.name, p.address, c.address + c.size - p.address⟩
      refine ⟨s, t, ?_⟩
      rw [show scanMerge mem p (c :: rest) =
        scanMerge mem ⟨p.name, p.address, c.address + c.size - p.address⟩ rest from by
          simp [scanMerge, hm]]
      exact heq
    · have hm2 : mergeCond mem p c = false := by
        simp only [Bool.not_eq_true] at hm
        exact hm
      obtain ⟨X, hX⟩ := scanMerge_not_merge mem p c rest hm2
      exact ⟨p.size, X, by rw [hX]⟩

theorem scanMerge_chain (mem : Nat → Nat) :
    ∀ (l : List DataStructure) (p : DataStructure),
      List.Chain' addrLe (p :: l) → List.Chain' addrLe (scanMerge mem p l) := by
  intro l
  induction l with
  | nil =>
    intro p _
    exact List.chain'_singleton p
  | cons c rest ih =>
    intro p hc
    rw [List.chain'_cons] at hc
    obtain ⟨hpc, hcr⟩ := hc
    have hcr2 := List.chain'_cons'.mp hcr
    by_cases hm : mergeCond mem p c = true
    · have hch : List.Chain' addrLe
          (⟨p.name, p.address, c.address + c.size - p.address⟩ :: rest) := by
        rw [List.chain'_cons']
        refine ⟨?_, hcr2.2⟩
        intro y hy
        have h1 : addrLe c y := hcr2.1 y hy
        show p.address ≤ y.address
        have h2 : p.address ≤ c.address := hpc
        have h3 : c.address ≤ y.address := h1
        omega
      have := ih _ hch
      rw [show scanMerge mem p (c :: rest) =
        scanMerge mem ⟨p.name, p.address, c.address + c.size - p.address⟩ rest from by
          simp [scanMerge, hm]]
      exact this
    · have hm2 : mergeCond mem p c = false := by
        simp only [Bool.not_eq_true] at hm
        exact hm
      by_cases hgap : dsEnd p < c.address
      · by_cases hn : (gapName mem p c == c.name) = true
        · -- p :: scanMerge (merged gap) rest
          have hch : List.Chain' addrLe
              (⟨gapName mem p c, dsEnd p, c.address + c.size - dsEnd p⟩ :: rest) := by
            rw [List.chain'_cons']
            refine ⟨?_, hcr2.2⟩
            intro y hy
            have h1 : addrLe c y := hcr2.1 y hy
            show dsEnd p ≤ y.address
            have h3 : c.address ≤ y.address := h1
            omega
          have hrec := ih _ hch
          obtain ⟨s, t, hht⟩ :=
            scanMerge_head mem rest ⟨gapName mem p c, dsEnd p, c.address + c.size - dsEnd p⟩
          rw [show scanMerge mem p (c :: rest) =
            p :: scanMerge mem ⟨gapName mem p c, dsEnd p, c.address + c.size - dsEnd p⟩ rest
            from by simp [scanMerge, hm2, hgap, hn]]
          rw [List.chain'_cons']
          refine ⟨?_, hrec⟩
          intro y hy
          rw [hht] at hy
          simp only [List.head?_cons, Option.mem_def, Option.some.injEq] at hy
          rw [← hy]
          show p.address ≤ dsEnd p
          show p.address ≤ p.address + p.size
          omega
        · have hn2 : (gapName mem p c == c.name) = false := by
            simp only [Bool.not_eq_true] at hn
            exact hn
          have hrec := ih c hcr
          obtain ⟨s, t, hht⟩ := scanMerge_head mem rest c
          rw [show scanMerge mem p (c :: rest) =
            p :: ⟨gapName mem p c, dsEnd p, c.address - dsEnd p⟩ :: scanMerge mem c rest
            from by simp [scanMerge, hm2, hgap, hn2]]
          rw [List.chain'_cons]
          constructor
          · show p.address ≤ dsEnd p
            show p.address ≤ p.address + p.size
            omega
          · rw [List.chain'_cons']
            refine ⟨?_, hrec⟩
            intro y hy
            rw [hht] at hy
            simp only [List.head?_cons, Option.mem_def, Option.some.injEq] at hy
            rw [← hy]
            show dsEnd p ≤ c.address
            omega
      · have hrec := ih c hcr
        obtain ⟨s, t, hht⟩ := scanMerge_head mem rest c
        rw [show scanMerge mem p (c :: rest) = p :: scanMerge mem c rest from by
          simp [scanMerge, hm2, hgap]]
        rw [List.chain'_cons']
        refine ⟨?_, hrec⟩
        intro y hy
        rw [hht] at hy
        simp only [List.head?_cons, Option.mem_def, Option.some.injEq] at hy
        rw [← hy]
        exact hpc

/-- The settled relation between adjacent reconciled extents: the pair
neither merges nor leaves a gap, so a second scan takes no action on it. -/
def settledRel (mem : Nat → Nat) (a b : DataStructure) : Prop :=
  mergeCond mem a b = false ∧ ¬(dsEnd a < b.address)

/-- An extent whose name is not one of the two reserved synthetic gap
names. -/
def okName (d : DataStructure) : Prop :=
  d.name ≠ "Padding".toList ∧ d.name ≠ "Unreferenced".toList

instance (d : DataStructure) : Decidable (okName d) :=
  inferInstanceAs (Decidable (_ ∧ _))

theorem scanMerge_settled (mem : Nat → Nat) :
    ∀ (l : List DataStructure) (p : DataStructure),
      okName p → (∀ e ∈ l, okName e) →
      List.Chain' (settledRel mem) (scanMerge mem p l) := by
  intro l
  induction l with
  | nil =>
    intro p _ _
    exact List.chain'_singleton p
  | cons c rest ih =>
    intro p hp hl
    have hc : okName c := hl c (List.mem_cons_self c rest)
    have hrest : ∀ e ∈ rest, okName e := fun e he => hl e (List.mem_cons_of_mem c he)
    by_cases hm : mergeCond mem p c = true
    · have := ih ⟨p.name, p.address, c.address + c.size - p.address⟩ hp hrest
      rw [show scanMerge mem p (c :: rest) =
        scanMerge mem ⟨p.name, p.address, c.address + c.size - p.address⟩ rest from by
          simp [scanMerge, hm]]
      exact this
    · have hm2 : mergeCond mem p c = false := by
        simp only [Bool.not_eq_true] at hm
        exact hm
      have hrec := ih c hc hrest
      obtain ⟨s, t, hht⟩ := scanMerge_head mem rest c
      by_cases hgap : dsEnd p < c.address
      · have hgn : (gapName mem p c == c.name) = false := by
          rw [beq_eq_false_iff_ne]
          cases gapName_cases mem p c with
          | inl hg => rw [hg]; exact fun hcon => hc.1 hcon.symm
          | inr hg => rw [hg]; exact fun hcon => hc.2 hcon.symm
        have hpg : (p.name == gapName mem p c) = false := by
          rw [beq_eq_false_iff_ne]
          cases gapName_cases mem p c with
          | inl hg => rw [hg]; exact hp.1
          | inr hg => rw [hg]; exact hp.2
        rw [show scanMerge mem p (c :: rest) =
          p :: ⟨gapName mem p c, dsEnd p, c.address - dsEnd p⟩ :: scanMerge mem c rest
          from by simp [scanMerge, hm2, hgap, hgn]]
        rw [List.chain'_cons]
        constructor
        · constructor
          · show mergeCond mem p ⟨gapName mem p c, dsEnd p, c.address - dsEnd p⟩ = false
            unfold mergeCond
            rw [show (⟨gapName mem p c, dsEnd p, c.address - dsEnd p⟩ : DataStructure).name
              = gapName mem p c from rfl] at *
            rw [hpg]
            rfl
          · show ¬(dsEnd p < dsEnd p)
            omega
        · rw [List.chain'_cons']
          refine ⟨?_, hrec⟩
          intro y hy
          rw [hht] at hy
          simp only [List.head?_cons, Option.mem_def, Option.some.injEq] at hy
          rw [← hy]
          constructor
          · show mergeCond mem ⟨gapName mem p c, dsEnd p, c.address - dsEnd p⟩
              ⟨c.name, c.address, s⟩ = false
            unfold mergeCond
            rw [show (⟨c.name, c.address, s⟩ : DataStructure).name = c.name from rfl]
            rw [show (⟨gapName mem p c, dsEnd p, c.address - dsEnd p⟩ : DataStructure).name
              = gapName mem p c from rfl]
            rw [hgn]
            rfl
          · show ¬(dsEnd ⟨gapName mem p c, dsEnd p, c.address - dsEnd p⟩ <
              (⟨c.name, c.address, s⟩ : DataStructure).address)
            show ¬(p.address + p.size + (c.address - (p.address + p.size)) < c.address)
            have hgap2 : p.address + p.size < c.address := hgap
            omega
      · rw [show scanMerge mem p (c :: rest) = p :: scanMerge mem c rest from by
          simp [scanMerge, hm2, hgap]]
        rw [List.chain'_cons']
        refine ⟨?_, hrec⟩
        intro y hy
        rw [hht] at hy
        simp only [List.head?_cons, Option.mem_def, Option.some.injEq] at hy
        rw [← hy]
        constructor
        · show mergeCond mem p ⟨c.name, c.address, s⟩ = false
          exact hm2
        · exact hgap

theorem scanMerge_of_settled (mem : Nat → Nat) :
    ∀ (l : List DataStructure) (p : DataStructure),
      List.Chain' (settledRel mem) (p :: l) → scanMerge mem p l = p :: l := by
  intro l
  induction l with
  | nil => intro p _; rfl
  | cons c rest ih =>
    intro p hch
    rw [List.chain'_cons] at hch
    obtain ⟨⟨hm, hgap⟩, hrest⟩ := hch
    rw [show scanMerge mem p (c :: rest) = p :: scanMerge mem c rest from by
      simp [scanMerge, hm, hgap]]
    rw [ih c hrest]

/-- C5 (amended): for a fixed memory image, `sortDataStructures` is a
pure function of its input (determinism is definitional in this
embedding), the sort keeps extents with equal start addresses in stable
input order (second conjunct), and reconciliation is idempotent PROVIDED
no input extent carries one of the two reserved synthetic names
`"Padding"`/`"Unreferenced"` (first conjunct) — a restriction forced by
`c5_counterexample`: a synthetic gap extent inserted next to an input
extent of the same reserved name is merged with it only by a second
pass. -/
theorem c5_idempotent_stable (mem : Nat → Nat) (l : List DataStructure)
    (hok : ∀ e ∈ l, okName e) :
    sortDataStructures mem (sortDataStructures mem l) = sortDataStructures mem l ∧
    ∀ k, (sortByAddr l).filter (fun e => e.address == k) =
      l.filter (fun e => e.address == k) := by
  refine ⟨?_, fun k => sortByAddr_stable k l⟩
  cases hs : sortByAddr l with
  | nil =>
    have h1 : sortDataStructures mem l = [] := by
      unfold sortDataStructures
      rw [hs]
    rw [h1]
    rfl
  | cons p rest =>
    have hpair : List.Pairwise addrLe (p :: rest) := by
      have := sortByAddr_pairwise l
      rwa [hs] at this
    have hchain : List.Chain' addrLe (p :: rest) := List.chain'_iff_pairwise.mpr hpair
    have hoks : ∀ e ∈ p :: rest, okName e := by
      intro e he
      apply hok
      rw [← sortByAddr_mem l e, hs]
      exact he
    have hout : sortDataStructures mem l = scanMerge mem p rest := by
      unfold sortDataStructures
      rw [hs]
    have hsettled : List.Chain' (settledRel mem) (scanMerge mem p rest) :=
      scanMerge_settled mem rest p (hoks p (List.mem_cons_self p rest))
        (fun e he => hoks e (List.mem_cons_of_mem p he))
    have hchain2 : List.Chain' addrLe (scanMerge mem p rest) :=
      scanMerge_chain mem rest p hchain
    have hpout : List.Pairwise addrLe (scanMerge mem p rest) :=
      List.chain'_iff_pairwise.mp hchain2
    have hid : sortByAddr (scanMerge mem p rest) = scanMerge mem p rest :=
      sortByAddr_sorted_id _ hpout
    obtain ⟨s, t, hht⟩ := scanMerge_head mem rest p
    rw [hout]
    unfold sortDataStructures
    rw [hid, hht]
    show scanMerge mem ⟨p.name, p.address, s⟩ t = ⟨p.name, p.address, s⟩ :: t
    have hsettled2 : List.Chain' (settledRel mem) (⟨p.name, p.address, s⟩ :: t) := by
      rw [← hht]
      exact hsettled
    exact scanMerge_of_settled mem t _ hsettled2

/-- C5 counterexample to the claim as stated: an input extent named
`"Padding"` followed by an all-zero gap.  The first pass inserts a
synthetic `"Padding"` gap extent right after it without re-examining the
new pair; the second pass merges the two, so re-running the
reconciliation changes the list. -/
theorem c5_counterexample :
    sortDataStructures (fun _ => 0)
        (sortDataStructures (fun _ => 0)
          [⟨"Padding".toList, 0, 2⟩, ⟨"X".toList, 4, 2⟩]) ≠
      sortDataStructures (fun _ => 0)
        [⟨"Padding".toList, 0, 2⟩, ⟨"X".toList, 4, 2⟩] := by
  decide

/-- Witness for `c5_idempotent_stable` at a concrete input. -/
theorem c5_witness :
    sortDataStructures (fun _ => 0)
        (sortDataStructures (fun _ => 0) [⟨"A".toList, 4, 2⟩, ⟨"B".toList, 0, 1⟩]) =
      sortDataStructures (fun _ => 0) [⟨"A".toList, 4, 2⟩, ⟨"B".toList, 0, 1⟩] :=
  (c5_idempotent_stable (fun _ => 0) [⟨"A".toList, 4, 2⟩, ⟨"B".toList, 0, 1⟩]
    (by decide)).1

theorem vkToBitsRecords_no_sentinel :
    ∀ fuel addr, vkToBitsRecords (fun _ => 1) fuel addr = none := by
  intro fuel
  induction fuel with
  | zero => intro addr; rfl
  | succ f ih =>
    intro addr
    simp [vkToBitsRecords, ih]

/-- C6 counterexample to the claim as stated: the walks carry no
iteration cap.  On a memory image with no sentinel record (every byte 1),
the `genVkToBits` walk completes for NO finite number of loop iterations —
there is no bound at which it stops with a structural failure. -/
theorem c6_counterexample :
    ¬∃ fuel r, vkToBitsRecords (fun _ => 1) fuel 0 = some r := by
  rintro ⟨fuel, r, hr⟩
  rw [vkToBitsRecords_no_sentinel] at hr
  cases hr

/-- C6 (amended): the sentinel-terminated walks have no iteration cap
and never raise a structural failure; they stop exactly at the first
sentinel record.  Whenever a sentinel occurs among the first `fuel`
records, both walks complete within `fuel` loop iterations; without a
sentinel they loop unboundedly (`c6_counterexample`). -/
theorem c6_walks_stop_at_sentinel (mem : Nat → Nat) (stride : Nat) :
    ∀ fuel addr,
      ((∃ i, i < fuel ∧ mem (addr + 2 * i) = 0) →
        (vkToBitsRecords mem fuel addr).isSome = true) ∧
      ((∃ i, i < fuel ∧ mem (addr + stride * i) = 0) →
        (vkToWcharRecords mem stride fuel addr).isSome = true) := by
  intro fuel
  induction fuel with
  | zero =>
    intro addr
    constructor <;> rintro ⟨i, hi, _⟩ <;> omega
  | succ f ih =>
    intro addr
    constructor
    · rintro ⟨i, hi, hz⟩
      by_cases h0 : mem addr = 0
      · simp [vkToBitsRecords, h0]
      · have hi0 : i ≠ 0 := by
          intro hc
          rw [hc] at hz
          simp at hz
          exact h0 hz
        obtain ⟨j, rfl⟩ : ∃ j, i = j + 1 := ⟨i - 1, by omega⟩
        have harith : addr + 2 + 2 * j = addr + 2 * (j + 1) := by ring
        have hrec := (ih (addr + 2)).1 ⟨j, by omega, by rw [harith]; exact hz⟩
        cases hv : vkToBitsRecords mem f (addr + 2) with
        | none => rw [hv] at hrec; simp at hrec
        | some val => simp [vkToBitsRecords, h0, hv]
    · rintro ⟨i, hi, hz⟩
      by_cases h0 : mem addr = 0
      · simp [vkToWcharRecords, h0]
      · have hi0 : i ≠ 0 := by
          intro hc
          rw [hc] at hz
          simp at hz
          exact h0 hz
        obtain ⟨j, rfl⟩ : ∃ j, i = j + 1 := ⟨i - 1, by omega⟩
        have harith : addr + stride + stride * j = addr + stride * (j + 1) := by ring
        have hrec := (ih (addr + stride)).2 ⟨j, by omega, by rw [harith]; exact hz⟩
        cases hv : vkToWcharRecords mem stride f (addr + stride) with
        | none => rw [hv] at hrec; simp at hrec
        | some val => simp [vkToWcharRecords, h0, hv]

/-- Witness for `c6_walks_stop_at_sentinel` at a concrete input: a
sentinel at byte 4 is reached by both walks within 3 iterations. -/
theorem c6_witness :
    (vkToBitsRecords (fun a => if a < 4 then 1 else 0) 3 0).isSome = true ∧
    (vkToWcharRecords (fun a => if a < 4 then 1 else 0) 4 3 0).isSome = true :=
  ⟨(c6_walks_stop_at_sentinel (fun a => if a < 4 then 1 else 0) 4 3 0).1
      ⟨2, by omega, by decide⟩,
    (c6_walks_stop_at_sentinel (fun a => if a < 4 then 1 else 0) 4 3 0).2
      ⟨1, by omega, by decide⟩⟩

/-- C7 (amended): with the numeric-only option set, `symbol`,
`bitMask`, `attributes` and `localeFlags` return the plain `integer`
rendering for every input, but `wchar` still produces character-literal
forms for printable ASCII (and for quote/backslash), and `wstring`
ignores the option entirely, always producing an `L"..."` string literal
whose first character is `L` — never a numeric rendering. -/
theorem c7_numeric_only_mode (table syms attrs : SymbolTable) (v : Value)
    (h : Int) (flags : Nat) :
    symbol true table v h = integer v h ∧
    bitMask true table v h = integer v h ∧
    attributes true syms attrs v h = integer v h ∧
    localeFlags true flags = integer flags 8 ∧
    (∀ w, 32 ≤ w → w < 127 → w ≠ 39 → w ≠ 92 →
      (wchar true w).1 = ['L', qc, Char.ofNat w, qc]) ∧
    (∀ s, (wstring (some s)).head? = some 'L') ∧
    (∀ s v2 h2, wstring (some s) ≠ integer v2 h2) := by
  refine ⟨rfl, rfl, rfl, ?_, ?_, fun s => rfl, ?_⟩
  · simp [localeFlags, integer, hexFmt]
  · intro w h32 h127 h39 h92
    simp [wchar, h39, h92, h32, h127]
  · intro s v2 h2 hcon
    obtain ⟨c, tail, heq, hc⟩ := integer_head v2 h2
    rw [heq] at hcon
    have hL : ('L' : Char) = c := by
      have h3 := congrArg List.head? hcon
      simpa [wstring] using h3
    cases hc with
    | inl hd => rw [← hL] at hd; exact absurd hd (by decide)
    | inr hm => rw [← hL] at hm; exact absurd hm (by decide)

/-- C7 counterexample to the claim as stated: with the numeric-only
option set, the character formatter still renders the printable value
`0x41` as the character literal `L'A'`, not as the numeric rendering
`0x0041`; and `wstring` (which never consults the option) renders an
`L"..."` string literal. -/
theorem c7_counterexample :
    (wchar true 0x41).1 = ['L', qc, 'A', qc] ∧
    (wchar true 0x41).1 ≠ integer 0x41 4 ∧
    wstring (some "ab".toList) = 'L' :: dq :: 'a' :: 'b' :: [dq] := by
  refine ⟨by decide, by decide, by decide⟩

/-- Witness for `c7_numeric_only_mode` at a concrete input. -/
theorem c7_witness :
    (wchar true 66).1 = ['L', qc, Char.ofNat 66, qc] := by
  have h5 := (c7_numeric_only_mode [] [] [] 0 0 0).2.2.2.2.1
  exact h5 66 (by decide) (by decide) (by decide) (by decide)

/-- C8 (amended): the plausibility guard (`-t` override if positive,
else the declared `dwType` when `0 < dwType < 48`, else the fallback `4`)
governs ONLY the `#define KBD_TYPE` line; the root structure's `.dwType`
and `.dwSubType` fields are emitted verbatim from the source header. -/
theorem c8_type_guard (opt : Int) (t : KBDTABLES) :
    (opt ≤ 0 → 0 < t.dwType → t.dwType < 48 → kbdTypeValue opt t = t.dwType) ∧
    (opt ≤ 0 → ¬(0 < t.dwType ∧ t.dwType < 48) → kbdTypeValue opt t = 4) ∧
    (0 < opt → kbdTypeValue opt t = opt) ∧
    dwTypeField t = natDigits t.dwType ∧
    dwSubTypeField t = natDigits t.dwSubType := by
  refine ⟨?_, ?_, ?_, rfl, rfl⟩
  · intro hopt h1 h2
    unfold kbdTypeValue
    rw [if_neg (by omega), if_pos ⟨h1, h2⟩]
  · intro hopt hng
    unfold kbdTypeValue
    rw [if_neg (by omega), if_neg hng]
  · intro hpos
    unfold kbdTypeValue
    rw [if_pos (by omega)]

/-- C8 counterexample to the claim as stated: for a header with
`dwType = 100` (outside the plausible range) and no `-t` override, the
`#define KBD_TYPE` line uses the fallback `4`, but the emitted root
structure still carries `.dwType = 100` verbatim — the guard does not
govern that occurrence. -/
theorem c8_counterexample :
    kbdTypeValue 0
        ⟨none, none, none, none, none, none, none, 0, none, none, 0, 0, 0, none, 100, 0⟩ = 4 ∧
    dwTypeField
        ⟨none, none, none, none, none, none, none, 0, none, none, 0, 0, 0, none, 100, 0⟩ =
      "100".toList ∧
    "100".toList ≠ natDigits 4 := by
  refine ⟨by decide, by decide, by decide⟩

/-- Witness for `c8_type_guard` at a concrete input. -/
theorem c8_witness :
    kbdTypeValue 0
        ⟨none, none, none, none, none, none, none, 0, none, none, 0, 0, 0, none, 7, 3⟩ = 7 := by
  have h1 := (c8_type_guard 0
    ⟨none, none, none, none, none, none, none, 0, none, none, 0, 0, 0, none, 7, 3⟩).1
  exact h1 (by decide) (by decide) (by decide)

/-- C10: the root structure's array-size fields are recomputed from
the generated tables, not copied from the source header: `.bMaxVSCtoVK`
is the literal `0` when `pusVSCtoVK` is null and
`ARRAYSIZE(scancode_to_vk)` otherwise, independent of the header's
`bMaxVSCtoVK`; `.cbLgEntry` is the literal `0` when `pLigature` is null
and `sizeof(ligatures[0])` otherwise, independent of the header's
`cbLgEntry`. -/
theorem c10_recomputed_size_fields (t : KBDTABLES) :
    (t.pusVSCtoVK = none → bMaxVSCtoVKField t = "0,".toList) ∧
    (∀ a, t.pusVSCtoVK = some a →
      bMaxVSCtoVKField t = "ARRAYSIZE(scancode_to_vk),".toList) ∧
    (t.pLigature = none → cbLgEntryField t = "0,".toList) ∧
    (∀ a, t.pLigature = some a →
      cbLgEntryField t = "sizeof(ligatures[0]),".toList) ∧
    (∀ b, bMaxVSCtoVKField { t with bMaxVSCtoVK := b } = bMaxVSCtoVKField t) ∧
    (∀ csz, cbLgEntryField { t with cbLgEntry := csz } = cbLgEntryField t) := by
  refine ⟨?_, ?_, ?_, ?_, fun b => rfl, fun csz => rfl⟩
  · intro h
    unfold bMaxVSCtoVKField
    rw [h]
  · intro a h
    unfold bMaxVSCtoVKField
    rw [h]
  · intro h
    unfold cbLgEntryField
    rw [h]
  · intro a h
    unfold cbLgEntryField
    rw [h]

/-- Witness for `c10_recomputed_size_fields` at concrete inputs: a header
with null `pusVSCtoVK` but nonzero `bMaxVSCtoVK = 7` still emits the
literal `0`, and a header with non-null `pLigature` emits the `sizeof`
form. -/
theorem c10_witness :
    bMaxVSCtoVKField
        ⟨none, none, none, none, none, none, none, 7, none, none, 0, 0, 9, none, 0, 0⟩ =
      "0,".toList ∧
    cbLgEntryField
        ⟨none, none, none, none, none, none, some 5, 7, none, none, 0, 0, 9, some 3, 0, 0⟩ =
      "sizeof(ligatures[0]),".toList :=
  ⟨(c10_recomputed_size_fields _).1 rfl,
    (c10_recomputed_size_fields _).2.2.2.1 3 rfl⟩

end KbdRev
